import Mathlib

/- Verification of the attribution and output-writing logic of
cmd/generate/codeowners/output.go from the pizza-cli repository.

Strings are Lean `String`s; Go string primitives (strings.Split,
strings.Join, filepath.Base, byte-wise comparison) are modelled on the
decoded character lists, where the orderings and splits agree with Go's
byte-wise behaviour on UTF-8. -/

/-- Modelled from the spec: the per-author contribution record (the Go
`CodeownerStat` struct, defined outside this fragment): display name, email,
a numeric contribution score, and the alias stamped during attribution
resolution.  Go zero values are empty strings and 0. -/
structure CodeownerStat where
  Name : String
  Email : String
  ContributionCount : Nat
  GitHubAlias : String
deriving DecidableEq

instance : Inhabited CodeownerStat :=
  ⟨⟨"", "", 0, ""⟩⟩

/-- Modelled from the spec: a file's unordered collection of author
statistics (`AuthorStats`), as a list. -/
abbrev AuthorStats := List CodeownerStat

/-- An ordered slice of author statistics (`AuthorStatSlice`). -/
abbrev AuthorStatSlice := List CodeownerStat

/-- Modelled from the spec: `AuthorStats.ToSortedSlice` (defined outside this
fragment) sorts the collection by contribution score descending, stably; a
stable insertion sort realises that contract. -/
def ToSortedSlice (authorStats : AuthorStats) : AuthorStatSlice :=
  authorStats.insertionSort (fun a b => b.ContributionCount ≤ a.ContributionCount)

/-- Modelled from the spec: the attribution configuration (`config.Spec`,
defined outside this fragment), with the alias-to-emails mapping and the
ordered fallback alias list.  The Go `Attributions` field is a map iterated
in unspecified order; an association list fixes one iteration order, and the
properties proved below do not depend on it. -/
structure Spec where
  Attributions : List (String × List String)
  AttributionFallback : List String

/-- The inner double loop of `getTopContributorAttributions`: the aliases
`username` of the configuration whose email list contains `target`, once per
occurrence of `target` in that alias's email list, in configuration order. -/
def matchingAliases (attributions : List (String × List String)) (target : String) : List String :=
  attributions.flatMap (fun p => p.2.flatMap (fun email => if email = target then [p.1] else []))

/-- The rows one sorted entry contributes to `topContributors`.  The Go loop
runs `sortedAuthorStats[i].GitHubAlias = username` and then appends the
pointer `sortedAuthorStats[i]`, once per matching alias occurrence; every
appended row therefore aliases one shared record whose `GitHubAlias` is, once
the loop is over, the last matching alias. -/
def entryRows (attributions : List (String × List String)) (s : CodeownerStat) : List CodeownerStat :=
  let ms := matchingAliases attributions s.Email
  match ms.getLast? with
  | none => []
  | some u => ms.map (fun _ => { s with GitHubAlias := u })

/-- The `topContributors` accumulator of `getTopContributorAttributions`
before the fallback check: the rows of the at most `n` first sorted entries. -/
def topContributorRows (authorStats : AuthorStats) (n : Nat) (config : Spec) : AuthorStatSlice :=
  ((ToSortedSlice authorStats).take n).flatMap (fun s => entryRows config.Attributions s)

/-- `getTopContributorAttributions` from output.go: rows of the top `n`
sorted entries, or one row per configured fallback alias (other fields at Go
zero values) when no row matched. -/
def getTopContributorAttributions (authorStats : AuthorStats) (n : Nat) (config : Spec) : AuthorStatSlice :=
  let topContributors := topContributorRows authorStats n config
  if topContributors.length = 0 then
    config.AttributionFallback.map (fun fallbackAttribution =>
      { Name := "", Email := "", ContributionCount := 0, GitHubAlias := fallbackAttribution })
  else
    topContributors

/-- Go `strings.Split(filename, " ")[0]`: the segment of `filename` before
its first space. -/
def splitFirst (l : List Char) : List Char :=
  l.takeWhile (fun c => c != ' ')

/-- The character class of the cleaning pattern in `cleanFilename` (word
characters, period, apostrophe (code 39), hyphen, whitespace, forward slash,
backslash; Go regexp word characters are ASCII letters, digits and the
underscore, and Go regexp whitespace is tab, newline, form feed, carriage
return and space): characters NOT in this class get escaped. -/
def isAllowedChar (c : Char) : Bool :=
  c.isAlpha || c.isDigit || c == '_' || c == '.' || c.toNat == 39 || c == '-' ||
  c == '\t' || c == '\n' || c == '\x0c' || c == '\r' || c == ' ' ||
  c == '/' || c == '\\'

/-- The regexp replacement in `cleanFilename` (replace every character
outside the allowed class with a backslash followed by that character). -/
def escapeChars : List Char → List Char
  | [] => []
  | c :: cs => if isAllowedChar c then c :: escapeChars cs else '\\' :: c :: escapeChars cs

/-- `cleanFilename` from output.go: keep the text before the first space,
then escape every special character. -/
def cleanFilename (filename : String) : String :=
  let parsedFilename := splitFirst filename.data
  String.mk (escapeChars parsedFilename)

/-- Go `strings.Join(elems, sep)`. -/
def stringsJoin (elems : List String) (sep : String) : String :=
  match elems with
  | [] => ""
  | e :: rest => rest.foldl (fun acc x => acc ++ sep ++ x) e

/-- `writeGitHubCodeownersChunk` from output.go: the line written for one
file, paired with the returned `resultSlice` of aliases. -/
def writeGitHubCodeownersChunk (authorStats : AuthorStats) (config : Spec) (srcFilename : String) : String × List String :=
  let topContributors := getTopContributorAttributions authorStats 3 config
  let resultSlice := topContributors.map (fun contributor => contributor.GitHubAlias)
  if 0 < topContributors.length then
    (cleanFilename srcFilename ++ " @" ++ stringsJoin resultSlice " @" ++ "\n", resultSlice)
  else
    (cleanFilename srcFilename ++ "\n", resultSlice)

/-- `writeOwnersChunk` from output.go: the block written for one file — the
raw path line, then the indexed loop bounded by the contributor count and by
3, writing two indented lines per contributor. -/
def writeOwnersChunk (authorStats : AuthorStats) (config : Spec) (srcFilename : String) : String :=
  let topContributors := getTopContributorAttributions authorStats 3 config
  (List.range (min topContributors.length 3)).foldl
    (fun acc i =>
      acc ++ "  - " ++ (topContributors.getD i default).Name ++ "\n"
          ++ "    - " ++ (topContributors.getD i default).Email ++ "\n")
    (srcFilename ++ "\n")

/-- Go `filepath.Base` under Unix rules: the empty path gives ".", trailing
slashes are dropped, the element after the last slash remains, and an
all-slash path gives "/". -/
def filepathBase (path : String) : String :=
  if path = "" then "."
  else
    let stripped := (path.data.reverse.dropWhile (fun c => c == '/')).reverse
    let name := (stripped.reverse.takeWhile (fun c => c != '/')).reverse
    if name.isEmpty then "/" else String.mk name

/-- One flag rendered by the Visit callback of `generateOutputFile`:
`--name value`.  Cobra's Visit supplies exactly the explicitly set flags; we
take them as name and value pairs. -/
def flagString (f : String × String) : String :=
  "--" ++ f.1 ++ " " ++ f.2

/-- The `generatedCommand` string built by `generateOutputFile`. -/
def generatedCommand (path : String) (flags : List (String × String)) : String :=
  let flagStrings := flags.map flagString
  let base := "# $ pizza generate codeowners " ++ filepathBase path ++ "/"
  if 0 < flagStrings.length then base ++ " " ++ stringsJoin flagStrings " " else base

/-- The header block written by `generateOutputFile` before any per-file
content. -/
def headerString (path : String) (flags : List (String × String)) : String :=
  "# This file is generated automatically by OpenSauced pizza-cli. DO NOT EDIT. Stay saucy!\n#\n# Generated with command:\n"
    ++ generatedCommand path flags ++ "\n\n"

/-- Modelled from the spec: `FileStats` (defined outside this fragment) maps
file paths to author statistics — a Go map with unique keys, modelled as an
association list. -/
abbrev FileStats := List (String × AuthorStats)

/-- Go map indexing `fileStats[filename]` (zero value: empty statistics). -/
def lookupStats (fileStats : FileStats) (filename : String) : AuthorStats :=
  match fileStats.find? (fun p => p.1 = filename) with
  | some p => p.2
  | none => []

/-- Go byte-wise string comparison, non-strict: on decoded character lists
this is code-point lexicographic order, which sorts UTF-8 strings exactly as
Go's byte-wise order does. -/
def goStringLe : List Char → List Char → Bool
  | [], _ => true
  | _ :: _, [] => false
  | a :: as, b :: bs =>
    if a.toNat < b.toNat then true
    else if b.toNat < a.toNat then false
    else goStringLe as bs

/-- Go byte-wise string comparison, strict, as `sort.Strings` uses. -/
def goStringLt : List Char → List Char → Bool
  | [], [] => false
  | [], _ :: _ => true
  | _ :: _, [] => false
  | a :: as, b :: bs =>
    if a.toNat < b.toNat then true
    else if b.toNat < a.toNat then false
    else goStringLt as bs

/-- The non-strict byte-wise order on strings, as a relation. -/
def goStrLe (a b : String) : Prop :=
  goStringLe a.data b.data = true

instance : DecidableRel goStrLe :=
  fun a b => inferInstanceAs (Decidable (goStringLe a.data b.data = true))

/-- The filename collection and `sort.Strings` step of `generateOutputFile`:
map keys sorted ascending by Go's byte-wise string order (the keys are
distinct, so the deterministic result is the unique sorted permutation and
the choice of sorting algorithm is immaterial). -/
def sortedFilenames (fileStats : FileStats) : List String :=
  (fileStats.map Prod.fst).insertionSort goStrLe

/-- Concatenation of the chunks written sequentially to the output file. -/
def concatStrings (chunks : List String) : String :=
  chunks.foldr (fun s acc => s ++ acc) ""

/-- `generateOutputFile` from output.go, as the full text written to the
output file: the header, then one chunk per filename in sorted order,
dispatching on `ownersStyleFile`. -/
def generateOutputFile (fileStats : FileStats) (path : String) (flags : List (String × String)) (config : Spec) (ownersStyleFile : Bool) : String :=
  headerString path flags ++
  concatStrings ((sortedFilenames fileStats).map (fun filename =>
    let authorStats := lookupStats fileStats filename
    if ownersStyleFile then
      writeOwnersChunk authorStats config filename
    else
      (writeGitHubCodeownersChunk authorStats config filename).1))

/- Helper lemmas. -/

theorem string_data_inj {a b : String} (h : a.data = b.data) : a = b := by
  cases a
  cases b
  cases h
  rfl

theorem empty_append_str (s : String) : "" ++ s = s := by
  apply string_data_inj
  simp [String.data_append]

theorem length_entryRows (attributions : List (String × List String)) (s : CodeownerStat) :
    (entryRows attributions s).length = (matchingAliases attributions s.Email).length := by
  simp only [entryRows]
  cases hms : (matchingAliases attributions s.Email).getLast? with
  | none => simp [List.getLast?_eq_none_iff.mp hms]
  | some u => simp

theorem matchingAliases_eq_nil (attributions : List (String × List String)) (target : String)
    (h : ∀ p ∈ attributions, target ∉ p.2) :
    matchingAliases attributions target = [] := by
  simp only [matchingAliases]
  rw [List.flatMap_eq_nil_iff]
  intro p hp
  rw [List.flatMap_eq_nil_iff]
  intro email hemail
  have hne : email ≠ target := fun he => h p hp (he ▸ hemail)
  simp [hne]

theorem mem_take_toSortedSlice {s : CodeownerStat} {authorStats : AuthorStats} {n : Nat}
    (h : s ∈ (ToSortedSlice authorStats).take n) : s ∈ authorStats := by
  have h1 : s ∈ ToSortedSlice authorStats := List.mem_of_mem_take h
  unfold ToSortedSlice at h1
  exact (List.perm_insertionSort _ authorStats).mem_iff.mp h1

theorem foldl_append_join (sep : String) (t : List String) (p q : String) :
    t.foldl (fun acc x => acc ++ sep ++ x) (p ++ q) =
      p ++ t.foldl (fun acc x => acc ++ sep ++ x) q := by
  induction t generalizing q with
  | nil => rfl
  | cons b t ih =>
    simp only [List.foldl_cons]
    rw [String.append_assoc p q sep, String.append_assoc p (q ++ sep) b, ih]

theorem stringsJoin_cons_cons (a b : String) (t : List String) (sep : String) :
    stringsJoin (a :: b :: t) sep = a ++ sep ++ stringsJoin (b :: t) sep := by
  show (b :: t).foldl (fun acc x => acc ++ sep ++ x) a = a ++ sep ++ stringsJoin (b :: t) sep
  simp only [List.foldl_cons]
  exact foldl_append_join sep t (a ++ sep) b

theorem at_prefix_join (l : List String) (a : String) :
    "@" ++ stringsJoin (a :: l) " @" = stringsJoin ((a :: l).map (fun s => "@" ++ s)) " " := by
  induction l generalizing a with
  | nil => rfl
  | cons b t ih =>
    rw [stringsJoin_cons_cons a b t " @", List.map_cons, List.map_cons,
      stringsJoin_cons_cons ("@" ++ a) ("@" ++ b) (t.map (fun s => "@" ++ s)) " ",
      show ("@" ++ b) :: t.map (fun s => "@" ++ s) = ((b :: t).map (fun s => "@" ++ s)) from rfl,
      ← ih b]
    apply string_data_inj
    have h1 : (" @" : String).data = [' ', '@'] := rfl
    have h2 : ("@" : String).data = ['@'] := rfl
    have h3 : (" " : String).data = [' '] := rfl
    simp [String.data_append, h1, h2, h3, List.append_assoc]

theorem space_at_join (l : List String) (a : String) :
    " @" ++ stringsJoin (a :: l) " @" = " " ++ stringsJoin ((a :: l).map (fun s => "@" ++ s)) " " := by
  rw [← at_prefix_join, ← String.append_assoc,
    show (" " ++ "@" : String) = " @" from by decide]

theorem concatStrings_nil : concatStrings [] = "" := rfl

theorem concatStrings_cons (s : String) (t : List String) :
    concatStrings (s :: t) = s ++ concatStrings t := rfl

theorem concatStrings_append (xs ys : List String) :
    concatStrings (xs ++ ys) = concatStrings xs ++ concatStrings ys := by
  induction xs with
  | nil => simp [concatStrings_nil, empty_append_str]
  | cons x t ih =>
    simp only [List.cons_append, concatStrings_cons, ih, String.append_assoc]

theorem concatStrings_singleton (s : String) : concatStrings [s] = s := by
  simp [concatStrings_cons, concatStrings_nil, String.append_empty]

theorem sum_le_length_of_le_one (l : List Nat) (h : ∀ x ∈ l, x ≤ 1) : l.sum ≤ l.length := by
  induction l with
  | nil => simp
  | cons a t ih =>
    have ha := h a (List.mem_cons_self a t)
    have ht := ih (fun x hx => h x (List.mem_cons_of_mem a hx))
    simp only [List.sum_cons, List.length_cons]
    omega

theorem take_min_length {α : Type} (l : List α) (n : Nat) :
    l.take (min l.length n) = l.take n := by
  rcases Nat.le_total l.length n with h | h
  · rw [Nat.min_eq_left h, List.take_length, List.take_of_length_le h]
  · rw [Nat.min_eq_right h]

theorem char_toNat_inj {a b : Char} (h : a.toNat = b.toNat) : a = b := by
  have h2 := congrArg Char.ofNat h
  rwa [Char.ofNat_toNat, Char.ofNat_toNat] at h2

theorem goStringLe_cons_cons (x y : Char) (xs ys : List Char) :
    goStringLe (x :: xs) (y :: ys) = true ↔
      x.toNat < y.toNat ∨ (x.toNat = y.toNat ∧ goStringLe xs ys = true) := by
  simp only [goStringLe]
  by_cases h1 : x.toNat < y.toNat
  · simp [h1]
  · by_cases h2 : y.toNat < x.toNat
    · rw [if_neg h1, if_pos h2]
      simp only [Bool.false_eq_true, false_iff]
      rintro (h | ⟨h, _⟩) <;> omega
    · have hxy : x.toNat = y.toNat := by omega
      rw [if_neg h1, if_neg h2]
      simp [hxy]

theorem goStringLt_cons_cons (x y : Char) (xs ys : List Char) :
    goStringLt (x :: xs) (y :: ys) = true ↔
      x.toNat < y.toNat ∨ (x.toNat = y.toNat ∧ goStringLt xs ys = true) := by
  simp only [goStringLt]
  by_cases h1 : x.toNat < y.toNat
  · simp [h1]
  · by_cases h2 : y.toNat < x.toNat
    · rw [if_neg h1, if_pos h2]
      simp only [Bool.false_eq_true, false_iff]
      rintro (h | ⟨h, _⟩) <;> omega
    · have hxy : x.toNat = y.toNat := by omega
      rw [if_neg h1, if_neg h2]
      simp [hxy]

theorem goStringLe_total : ∀ a b : List Char, goStringLe a b = true ∨ goStringLe b a = true := by
  intro a
  induction a with
  | nil => intro b; left; rfl
  | cons x xs ih =>
    intro b
    cases b with
    | nil => right; rfl
    | cons y ys =>
      rw [goStringLe_cons_cons, goStringLe_cons_cons]
      rcases Nat.lt_trichotomy x.toNat y.toNat with h | h | h
      · left; left; exact h
      · rcases ih ys with h2 | h2
        · left; right; exact ⟨h, h2⟩
        · right; right; exact ⟨h.symm, h2⟩
      · right; left; exact h

theorem goStringLe_trans :
    ∀ a b c : List Char, goStringLe a b = true → goStringLe b c = true → goStringLe a c = true := by
  intro a
  induction a with
  | nil => intro b c _ _; rfl
  | cons x xs ih =>
    intro b c hab hbc
    cases b with
    | nil => simp [goStringLe] at hab
    | cons y ys =>
      cases c with
      | nil => simp [goStringLe] at hbc
      | cons z zs =>
        rw [goStringLe_cons_cons] at hab hbc ⊢
        rcases hab with h1 | ⟨h1, h1r⟩ <;> rcases hbc with h2 | ⟨h2, h2r⟩
        · left; omega
        · left; omega
        · left; omega
        · right; exact ⟨by omega, ih ys zs h1r h2r⟩

theorem goStringLt_of_le_of_ne :
    ∀ a b : List Char, goStringLe a b = true → a ≠ b → goStringLt a b = true := by
  intro a
  induction a with
  | nil =>
    intro b _ hne
    cases b with
    | nil => exact absurd rfl hne
    | cons y ys => rfl
  | cons x xs ih =>
    intro b hle hne
    cases b with
    | nil => simp [goStringLe] at hle
    | cons y ys =>
      rw [goStringLe_cons_cons] at hle
      rw [goStringLt_cons_cons]
      rcases hle with h1 | ⟨h1, h1r⟩
      · left; exact h1
      · have hx : x = y := char_toNat_inj h1
        have hxs : xs ≠ ys := by
          intro hrest
          exact hne (by rw [hx, hrest])
        right
        exact ⟨h1, ih ys h1r hxs⟩

instance : IsTotal String goStrLe :=
  ⟨fun a b => goStringLe_total a.data b.data⟩

instance : IsTrans String goStrLe :=
  ⟨fun a b c hab hbc => goStringLe_trans a.data b.data c.data hab hbc⟩

theorem range_foldl_chunks (g : CodeownerStat → String) (l : List CodeownerStat)
    (k : Nat) (hk : k ≤ l.length) (init : String) :
    (List.range k).foldl (fun acc i => acc ++ g (l.getD i default)) init =
      init ++ concatStrings ((l.take k).map g) := by
  induction k generalizing init with
  | zero => simp [concatStrings_nil, String.append_empty]
  | succ k ih =>
    have hklt : k < l.length := hk
    rw [List.range_succ, List.foldl_append]
    rw [ih (Nat.le_of_lt hklt)]
    simp only [List.foldl_cons, List.foldl_nil]
    rw [List.take_succ, List.getElem?_eq_getElem hklt]
    simp only [Option.toList_some]
    rw [List.map_append, concatStrings_append, List.map_cons, List.map_nil,
      concatStrings_singleton, List.getD_eq_getElem l default hklt, String.append_assoc]

theorem inner_alias_length (u : String) (emails : List String) (target : String) :
    (emails.flatMap (fun email => if email = target then [u] else [])).length =
      emails.countP (fun e => e = target) := by
  induction emails with
  | nil => rfl
  | cons e t ih =>
    rw [List.flatMap_cons, List.length_append, ih, List.countP_cons]
    by_cases he : e = target
    · simp [he]
      omega
    · simp [he]

theorem length_matchingAliases_eq_countP (attributions : List (String × List String))
    (target : String)
    (honce : ∀ p ∈ attributions, p.2.countP (fun e => e = target) ≤ 1) :
    (matchingAliases attributions target).length =
      attributions.countP (fun p => target ∈ p.2) := by
  induction attributions with
  | nil => rfl
  | cons p t ih =>
    have hp := honce p (List.mem_cons_self p t)
    have ht := ih (fun q hq => honce q (List.mem_cons_of_mem p hq))
    simp only [matchingAliases, List.flatMap_cons, List.length_append] at ht ⊢
    rw [ht, List.countP_cons, inner_alias_length]
    by_cases hm : target ∈ p.2
    · have hpos : 0 < p.2.countP (fun e => e = target) :=
        List.countP_pos_iff.mpr ⟨target, hm, by simp⟩
      have h1 : p.2.countP (fun e => e = target) = 1 := by omega
      simp [hm, h1]
      omega
    · have h0 : p.2.countP (fun e => e = target) = 0 :=
        List.countP_eq_zero.mpr (fun a ha hdec => hm ((of_decide_eq_true hdec) ▸ ha))
      simp [hm, h0]

theorem escapeChars_of_allowed (l : List Char) (h : ∀ c ∈ l, isAllowedChar c = true) :
    escapeChars l = l := by
  induction l with
  | nil => rfl
  | cons c cs ih =>
    rw [escapeChars, if_pos (h c (List.mem_cons_self c cs)),
      ih (fun x hx => h x (List.mem_cons_of_mem c hx))]

theorem splitFirst_splitFirst (l : List Char) :
    splitFirst (splitFirst l) = splitFirst l := by
  unfold splitFirst
  rw [List.takeWhile_eq_self_iff]
  intro x hx
  simpa using List.mem_takeWhile_imp (p := fun c => c != ' ') hx

theorem writeOwnersChunk_eq_blocks (authorStats : AuthorStats) (config : Spec) (srcFilename : String) :
    writeOwnersChunk authorStats config srcFilename =
      srcFilename ++ "\n" ++
      concatStrings (((getTopContributorAttributions authorStats 3 config).take 3).map
        (fun c => "  - " ++ c.Name ++ "\n" ++ "    - " ++ c.Email ++ "\n")) := by
  simp only [writeOwnersChunk]
  set tc := getTopContributorAttributions authorStats 3 config with htc
  have hfun : (fun (acc : String) (i : Nat) =>
        acc ++ "  - " ++ (tc.getD i default).Name ++ "\n"
            ++ "    - " ++ (tc.getD i default).Email ++ "\n")
      = (fun (acc : String) (i : Nat) =>
        acc ++ ("  - " ++ (tc.getD i default).Name ++ "\n"
            ++ "    - " ++ (tc.getD i default).Email ++ "\n")) := by
    funext acc i
    simp [String.append_assoc]
  rw [hfun, range_foldl_chunks
      (fun c => "  - " ++ c.Name ++ "\n" ++ "    - " ++ c.Email ++ "\n") tc
      (min tc.length 3) (Nat.min_le_left _ _) (srcFilename ++ "\n"),
    take_min_length]

/- Claim theorems. -/

/-- Claim C1 counterexample: the resolver's result can be longer than 3 —
a single author whose email is registered under four aliases yields four
rows, so the CODEOWNERS line for such a file carries four aliases. -/
theorem getTop_exceeds_three_counterexample :
    ¬ ((getTopContributorAttributions [⟨"a", "e", 1, ""⟩] 3
        ⟨[("u1", ["e"]), ("u2", ["e"]), ("u3", ["e"]), ("u4", ["e"])], []⟩).length ≤ 3) := by
  decide

/-- Claim C1 (amended): for every author-stats collection and configuration
the OWNERS-style writer emits at most 3 contributor blocks per file; and
when additionally every author's email matches at most one alias-and-email
occurrence of the configuration and the fallback list has at most 3 aliases,
the resolver's result has length at most 3, and so does the alias slice
emitted on a CODEOWNERS line. -/
theorem getTop_length_le_three (authorStats : AuthorStats) (config : Spec) (srcFilename : String) :
    (writeOwnersChunk authorStats config srcFilename =
      srcFilename ++ "\n" ++
      concatStrings (((getTopContributorAttributions authorStats 3 config).take 3).map
        (fun c => "  - " ++ c.Name ++ "\n" ++ "    - " ++ c.Email ++ "\n")) ∧
     (((getTopContributorAttributions authorStats 3 config).take 3).map
        (fun c => "  - " ++ c.Name ++ "\n" ++ "    - " ++ c.Email ++ "\n")).length ≤ 3) ∧
    ((∀ s ∈ authorStats, (matchingAliases config.Attributions s.Email).length ≤ 1) →
      config.AttributionFallback.length ≤ 3 →
      (getTopContributorAttributions authorStats 3 config).length ≤ 3 ∧
      (writeGitHubCodeownersChunk authorStats config srcFilename).2.length ≤ 3) := by
  refine ⟨⟨writeOwnersChunk_eq_blocks authorStats config srcFilename, ?_⟩, ?_⟩
  · rw [List.length_map, List.length_take]
    exact Nat.min_le_left _ _
  intro hmatch hfb
  have h1 : (getTopContributorAttributions authorStats 3 config).length ≤ 3 := by
    simp only [getTopContributorAttributions]
    by_cases h0 : (topContributorRows authorStats 3 config).length = 0
    · rw [if_pos h0, List.length_map]
      exact hfb
    · rw [if_neg h0]
      simp only [topContributorRows, List.length_flatMap]
      calc (List.map (List.length ∘ fun s => entryRows config.Attributions s)
              ((ToSortedSlice authorStats).take 3)).sum
          ≤ (List.map (List.length ∘ fun s => entryRows config.Attributions s)
              ((ToSortedSlice authorStats).take 3)).length := by
            apply sum_le_length_of_le_one
            intro x hx
            obtain ⟨s, hs, rfl⟩ := List.mem_map.mp hx
            have hm := hmatch s (mem_take_toSortedSlice hs)
            simpa [Function.comp, length_entryRows] using hm
        _ = ((ToSortedSlice authorStats).take 3).length := List.length_map _ _
        _ ≤ 3 := by
            rw [List.length_take]
            exact Nat.min_le_left _ _
  have h2 : (writeGitHubCodeownersChunk authorStats config srcFilename).2 =
      (getTopContributorAttributions authorStats 3 config).map (fun c => c.GitHubAlias) := by
    simp only [writeGitHubCodeownersChunk]
    split <;> rfl
  refine ⟨h1, ?_⟩
  rw [h2, List.length_map]
  exact h1

/-- Claim C1 witness: the amended bounds applied at a concrete input,
discharging both hypotheses of the conditional part. -/
theorem getTop_length_le_three_witness :
    (∀ s ∈ ([⟨"a", "e", 5, ""⟩] : AuthorStats),
      (matchingAliases ([("u1", ["e"])] : List (String × List String)) s.Email).length ≤ 1) ∧
    ((["f1"] : List String).length ≤ 3) ∧
    ((((getTopContributorAttributions [⟨"a", "e", 5, ""⟩] 3 ⟨[("u1", ["e"])], ["f1"]⟩).take 3).map
        (fun c => "  - " ++ c.Name ++ "\n" ++ "    - " ++ c.Email ++ "\n")).length ≤ 3) ∧
    ((getTopContributorAttributions [⟨"a", "e", 5, ""⟩] 3 ⟨[("u1", ["e"])], ["f1"]⟩).length ≤ 3 ∧
      (writeGitHubCodeownersChunk [⟨"a", "e", 5, ""⟩] ⟨[("u1", ["e"])], ["f1"]⟩ "x.go").2.length ≤ 3) :=
  ⟨by decide, by decide,
    (getTop_length_le_three [⟨"a", "e", 5, ""⟩] ⟨[("u1", ["e"])], ["f1"]⟩ "x.go").1.2,
    (getTop_length_le_three [⟨"a", "e", 5, ""⟩] ⟨[("u1", ["e"])], ["f1"]⟩ "x.go").2
      (by decide) (by decide)⟩

/-- Claim C2: when no author's email occurs in any configured alias's email
set, the resolver returns exactly the configured fallback aliases wrapped as
contributor records, one per fallback alias, in configured order. -/
theorem getTop_fallback_on_no_match (authorStats : AuthorStats) (n : Nat) (config : Spec)
    (h : ∀ s ∈ authorStats, ∀ p ∈ config.Attributions, s.Email ∉ p.2) :
    getTopContributorAttributions authorStats n config =
      config.AttributionFallback.map (fun fallbackAttribution =>
        { Name := "", Email := "", ContributionCount := 0, GitHubAlias := fallbackAttribution }) := by
  have hrows : topContributorRows authorStats n config = [] := by
    simp only [topContributorRows]
    rw [List.flatMap_eq_nil_iff]
    intro s hs
    have hnil : matchingAliases config.Attributions s.Email = [] :=
      matchingAliases_eq_nil _ _ (fun p hp => h s (mem_take_toSortedSlice hs) p hp)
    simp [entryRows, hnil]
  simp [getTopContributorAttributions, hrows]

/-- Claim C2 witness: a non-matching author yields exactly the fallback. -/
theorem getTop_fallback_on_no_match_witness :
    (∀ s ∈ ([⟨"bob", "b@x.com", 5, ""⟩] : AuthorStats),
      ∀ p ∈ ([("alice", ["a@x.com"])] : List (String × List String)), s.Email ∉ p.2) ∧
    getTopContributorAttributions [⟨"bob", "b@x.com", 5, ""⟩] 3
        ⟨[("alice", ["a@x.com"])], ["team-default", "team-two"]⟩ =
      (["team-default", "team-two"] : List String).map (fun fallbackAttribution =>
        { Name := "", Email := "", ContributionCount := 0, GitHubAlias := fallbackAttribution }) :=
  ⟨by decide,
    getTop_fallback_on_no_match [⟨"bob", "b@x.com", 5, ""⟩] 3
      ⟨[("alice", ["a@x.com"])], ["team-default", "team-two"]⟩ (by decide)⟩

/-- Claim C3: a top-ranked entry contributes one row per matching alias
occurrence — none when its email matches no alias, `k` rows when its email is
registered under `k` distinct aliases (each listing it at most once) — and
when the accumulated rows are non-empty they are exactly the resolver's
result. -/
theorem topEntry_row_count (authorStats : AuthorStats) (config : Spec)
    (s : CodeownerStat) (k : Nat)
    (hmem : s ∈ (ToSortedSlice authorStats).take 3)
    (honce : ∀ p ∈ config.Attributions, p.2.countP (fun e => e = s.Email) ≤ 1)
    (hk : config.Attributions.countP (fun p => s.Email ∈ p.2) = k)
    (hne : topContributorRows authorStats 3 config ≠ []) :
    (entryRows config.Attributions s).length = k ∧
    getTopContributorAttributions authorStats 3 config =
      topContributorRows authorStats 3 config := by
  constructor
  · rw [length_entryRows, length_matchingAliases_eq_countP _ _ honce, hk]
  · simp only [getTopContributorAttributions]
    rw [if_neg (fun h0 => hne (List.length_eq_zero.mp h0))]

/-- Claim C3 witness: an email registered under two aliases contributes two
rows. -/
theorem topEntry_row_count_witness :
    ((⟨"a", "e", 1, ""⟩ : CodeownerStat) ∈
      (ToSortedSlice [⟨"a", "e", 1, ""⟩]).take 3) ∧
    (∀ p ∈ ([("u1", ["e"]), ("u2", ["e"])] : List (String × List String)),
      p.2.countP (fun e => e = (⟨"a", "e", 1, ""⟩ : CodeownerStat).Email) ≤ 1) ∧
    (([("u1", ["e"]), ("u2", ["e"])] : List (String × List String)).countP
      (fun p => (⟨"a", "e", 1, ""⟩ : CodeownerStat).Email ∈ p.2) = 2) ∧
    (topContributorRows [⟨"a", "e", 1, ""⟩] 3 ⟨[("u1", ["e"]), ("u2", ["e"])], []⟩ ≠ []) ∧
    ((entryRows ([("u1", ["e"]), ("u2", ["e"])] : List (String × List String))
        ⟨"a", "e", 1, ""⟩).length = 2 ∧
      getTopContributorAttributions [⟨"a", "e", 1, ""⟩] 3 ⟨[("u1", ["e"]), ("u2", ["e"])], []⟩ =
        topContributorRows [⟨"a", "e", 1, ""⟩] 3 ⟨[("u1", ["e"]), ("u2", ["e"])], []⟩) :=
  ⟨by decide, by decide, by decide, by decide,
    topEntry_row_count [⟨"a", "e", 1, ""⟩] ⟨[("u1", ["e"]), ("u2", ["e"])], []⟩
      ⟨"a", "e", 1, ""⟩ 2 (by decide) (by decide) (by decide) (by decide)⟩

/-- Claim C4 counterexample: the filename cleaner is not idempotent — `*`
cleans to a backslash and an asterisk, which cleans again to two backslashes
and an asterisk, because the pattern re-escapes a special character even when
it is already preceded by a backslash. -/
theorem cleanFilename_not_idempotent :
    cleanFilename (cleanFilename "*") ≠ cleanFilename "*" := by
  decide

/-- Claim C4 (amended): the cleaner is idempotent exactly on the inputs the
counterexample excludes — whenever the text before the first space contains
only characters of the allowed class, cleaning twice equals cleaning once. -/
theorem cleanFilename_idempotent_on_allowed (filename : String)
    (h : ∀ c ∈ splitFirst filename.data, isAllowedChar c = true) :
    cleanFilename (cleanFilename filename) = cleanFilename filename := by
  have h1 : cleanFilename filename = String.mk (splitFirst filename.data) := by
    simp only [cleanFilename]
    rw [escapeChars_of_allowed _ h]
  rw [h1]
  simp only [cleanFilename]
  rw [splitFirst_splitFirst, escapeChars_of_allowed _ h]

/-- Claim C4 witness: idempotence on an ordinary path. -/
theorem cleanFilename_idempotent_on_allowed_witness :
    (∀ c ∈ splitFirst "src/a.go".data, isAllowedChar c = true) ∧
    cleanFilename (cleanFilename "src/a.go") = cleanFilename "src/a.go" :=
  ⟨by decide, cleanFilename_idempotent_on_allowed "src/a.go" (by decide)⟩

/-- Claim C6: cleaning a filename that contains a space equals cleaning only
its text before the first space. -/
theorem cleanFilename_rename_truncation (filename : String)
    (h : (' ') ∈ filename.data) :
    cleanFilename filename = cleanFilename (String.mk (splitFirst filename.data)) := by
  simp only [cleanFilename]
  rw [splitFirst_splitFirst]

/-- Claim C6 witness: "old.txt new.txt" cleans to the cleaned "old.txt". -/
theorem cleanFilename_rename_truncation_witness :
    (' ') ∈ "old.txt new.txt".data ∧
    cleanFilename "old.txt new.txt" = cleanFilename "old.txt" :=
  ⟨by decide, (cleanFilename_rename_truncation "old.txt new.txt" (by decide)).trans (by decide)⟩

/-- Claim C10: on an empty author-stats collection with a non-empty
fallback list, the resolver returns the wrapped fallback aliases, not the
empty list. -/
theorem getTop_empty_stats_fallback (n : Nat) (config : Spec)
    (h : config.AttributionFallback ≠ []) :
    getTopContributorAttributions [] n config =
      config.AttributionFallback.map (fun fallbackAttribution =>
        { Name := "", Email := "", ContributionCount := 0, GitHubAlias := fallbackAttribution }) ∧
    getTopContributorAttributions [] n config ≠ [] := by
  have hrows : topContributorRows [] n config = [] := by
    simp [topContributorRows, ToSortedSlice]
  have hval : getTopContributorAttributions [] n config =
      config.AttributionFallback.map (fun fallbackAttribution =>
        { Name := "", Email := "", ContributionCount := 0, GitHubAlias := fallbackAttribution }) := by
    simp [getTopContributorAttributions, hrows]
  refine ⟨hval, ?_⟩
  rw [hval, Ne, List.map_eq_nil_iff]
  exact h

/-- Claim C10 witness: the empty collection with fallback "team-default". -/
theorem getTop_empty_stats_fallback_witness :
    ((⟨[], ["team-default"]⟩ : Spec).AttributionFallback ≠ []) ∧
    (getTopContributorAttributions [] 3 ⟨[], ["team-default"]⟩ =
      (⟨[], ["team-default"]⟩ : Spec).AttributionFallback.map (fun fallbackAttribution =>
        { Name := "", Email := "", ContributionCount := 0, GitHubAlias := fallbackAttribution }) ∧
      getTopContributorAttributions [] 3 ⟨[], ["team-default"]⟩ ≠ []) :=
  ⟨by decide, getTop_empty_stats_fallback 3 ⟨[], ["team-default"]⟩ (by decide)⟩

/-- Claim C5: for a FileStats with at least two files and distinct keys, the
emission order of file paths is strictly increasing in the byte-wise
lexicographic order, and no path is emitted twice. -/
theorem sortedFilenames_strict_increasing (fileStats : FileStats)
    (hnd : (fileStats.map Prod.fst).Nodup) (hlen : 2 ≤ fileStats.length) :
    (sortedFilenames fileStats).Pairwise (fun a b => goStringLt a.data b.data = true) ∧
    (sortedFilenames fileStats).Nodup := by
  have hsorted : (sortedFilenames fileStats).Pairwise goStrLe :=
    List.sorted_insertionSort goStrLe (fileStats.map Prod.fst)
  have hperm : (fileStats.map Prod.fst).Perm (sortedFilenames fileStats) :=
    (List.perm_insertionSort goStrLe (fileStats.map Prod.fst)).symm
  have hnd2 : (sortedFilenames fileStats).Nodup := hperm.nodup hnd
  refine ⟨?_, hnd2⟩
  have hnd3 : (sortedFilenames fileStats).Pairwise (fun a b => a ≠ b) := hnd2
  exact (hsorted.and hnd3).imp
    (fun hab => goStringLt_of_le_of_ne _ _ hab.1 (fun hd => hab.2 (string_data_inj hd)))

/-- Claim C5 witness: two files in reverse order get sorted strictly. -/
theorem sortedFilenames_strict_increasing_witness :
    ((([("b.go", []), ("a.go", [])] : FileStats).map Prod.fst).Nodup) ∧
    (2 ≤ ([("b.go", []), ("a.go", [])] : FileStats).length) ∧
    ((sortedFilenames [("b.go", []), ("a.go", [])]).Pairwise
      (fun a b => goStringLt a.data b.data = true) ∧
      (sortedFilenames [("b.go", []), ("a.go", [])]).Nodup) :=
  ⟨by decide, by decide,
    sortedFilenames_strict_increasing [("b.go", []), ("a.go", [])] (by decide) (by decide)⟩

/-- Claim C7: the OWNERS-style chunk is the raw source filename on its own
line, followed by, for each of the first at most 3 resolved contributors in
rank order, the two indented lines with the contributor's name and email
(fallback contributors included, with empty fields). -/
theorem writeOwnersChunk_format (authorStats : AuthorStats) (config : Spec) (srcFilename : String) :
    writeOwnersChunk authorStats config srcFilename =
      srcFilename ++ "\n" ++
      concatStrings (((getTopContributorAttributions authorStats 3 config).take 3).map
        (fun c => "  - " ++ c.Name ++ "\n" ++ "    - " ++ c.Email ++ "\n")) :=
  writeOwnersChunk_eq_blocks authorStats config srcFilename

/-- Claim C8: when the resolver returns no contributors the CODEOWNERS line
is the cleaned filename alone; otherwise it is the cleaned filename followed
by the space-joined at-prefixed aliases. -/
theorem writeGitHubCodeownersChunk_format (authorStats : AuthorStats) (config : Spec)
    (srcFilename : String) :
    (writeGitHubCodeownersChunk authorStats config srcFilename).1 =
      if getTopContributorAttributions authorStats 3 config = [] then
        cleanFilename srcFilename ++ "\n"
      else
        cleanFilename srcFilename ++ " " ++
          stringsJoin ((getTopContributorAttributions authorStats 3 config).map
            (fun c => "@" ++ c.GitHubAlias)) " " ++ "\n" := by
  simp only [writeGitHubCodeownersChunk]
  cases htc : getTopContributorAttributions authorStats 3 config with
  | nil => simp
  | cons a t =>
    rw [if_neg (List.cons_ne_nil a t)]
    rw [if_pos (by simp : 0 < (a :: t).length)]
    have hlist : ((a.GitHubAlias :: t.map (fun c => c.GitHubAlias)).map (fun s => "@" ++ s))
        = (a :: t).map (fun c => "@" ++ c.GitHubAlias) := by
      simp [List.map_map, Function.comp]
    have key : " @" ++ stringsJoin ((a :: t).map (fun contributor => contributor.GitHubAlias)) " @"
        = " " ++ stringsJoin ((a :: t).map (fun c => "@" ++ c.GitHubAlias)) " " := by
      rw [List.map_cons,
        space_at_join (t.map (fun contributor => contributor.GitHubAlias)) a.GitHubAlias, hlist]
    rw [String.append_assoc (cleanFilename srcFilename) " @"
        (stringsJoin ((a :: t).map (fun contributor => contributor.GitHubAlias)) " @"),
      key,
      ← String.append_assoc (cleanFilename srcFilename) " "
        (stringsJoin ((a :: t).map (fun c => "@" ++ c.GitHubAlias)) " ")]

/-- Claim C9: the generated output opens with the fixed disclaimer line, a
lone hash line, the "Generated with command:" line, and the invocation line
built from the base name of the scanned path and every explicitly set flag
rendered as a double-dash name and value, space-joined, followed by a blank
line, and only then the per-file content. -/
theorem generateOutputFile_header (fileStats : FileStats) (path : String)
    (flags : List (String × String)) (config : Spec) (ownersStyleFile : Bool) :
    generateOutputFile fileStats path flags config ownersStyleFile =
      "# This file is generated automatically by OpenSauced pizza-cli. DO NOT EDIT. Stay saucy!" ++ "\n" ++
      "#" ++ "\n" ++
      "# Generated with command:" ++ "\n" ++
      ("# $ pizza generate codeowners " ++ filepathBase path ++ "/" ++
        (if flags = [] then "" else
          " " ++ stringsJoin (flags.map (fun f => "--" ++ f.1 ++ " " ++ f.2)) " ")) ++ "\n" ++
      "\n" ++
      concatStrings ((sortedFilenames fileStats).map (fun filename =>
        if ownersStyleFile then
          writeOwnersChunk (lookupStats fileStats filename) config filename
        else
          (writeGitHubCodeownersChunk (lookupStats fileStats filename) config filename).1)) := by
  have hgc : generatedCommand path flags =
      "# $ pizza generate codeowners " ++ filepathBase path ++ "/" ++
        (if flags = [] then "" else
          " " ++ stringsJoin (flags.map (fun f => "--" ++ f.1 ++ " " ++ f.2)) " ") := by
    cases flags with
    | nil => simp [generatedCommand, String.append_empty]
    | cons f t =>
      simp only [generatedCommand]
      rw [show ((f :: t).map (fun g => "--" ++ g.1 ++ " " ++ g.2)) = ((f :: t).map flagString) from rfl,
        if_pos (show 0 < ((f :: t).map flagString).length by simp),
        if_neg (List.cons_ne_nil f t),
        String.append_assoc ("# $ pizza generate codeowners " ++ filepathBase path ++ "/") " "
          (stringsJoin ((f :: t).map flagString) " ")]
  have hlit : ("# This file is generated automatically by OpenSauced pizza-cli. DO NOT EDIT. Stay saucy!\n#\n# Generated with command:\n" : String)
      = "# This file is generated automatically by OpenSauced pizza-cli. DO NOT EDIT. Stay saucy!" ++ "\n" ++
        "#" ++ "\n" ++ "# Generated with command:" ++ "\n" := by decide
  have hnl : ("\n\n" : String) = "\n" ++ "\n" := by decide
  simp only [generateOutputFile, headerString]
  rw [hlit, hnl, hgc]
  simp [String.append_assoc]
